import Mathlib

/-!
Shallow embedding of the SARSA(0) agent
(`sarsa_zero/sarsa_zero_agent.py`) and verification of its
natural-language specification.

Modelling conventions:
* Python floats are modelled as rationals (`ℚ`); the spec states exact
  algebraic identities, which hold for exact arithmetic.
* The Q-value table (an external collaborator with `get_q_value`,
  `update_q_value`, `save`) is modelled as a function
  `Obs → ℕ → Option ℚ` together with logs of the reads, writes and
  save requests issued against it, so that frame claims about table
  effects are observable.
* The random source (Python's `random` module plus the environment's
  action sampler) is modelled as deterministic streams with a cursor:
  `uf` yields the `random.random()` floats, `un` yields the integers
  used for `random.choice` indices and for `action_space.sample()`.
* A Gym environment is modelled as a stream of finite episodes: episode
  `i` has a start observation (the `reset` result) and a finite list of
  steps, each mapping the chosen action to the next observation and the
  reward; the `done` flag is true exactly on the last step of the list.
  Finiteness of each episode is precisely the termination precondition
  the spec places on the environments.
-/

namespace SarsaZero

/-- Deterministic model of the random sources: a stream `uf` of uniform
floats in `[0,1)` (for `random.random()`), a stream `un` of naturals
(for `random.choice` and `action_space.sample()`), and a cursor `k`. -/
structure RNG where
  uf : ℕ → ℚ
  un : ℕ → ℕ
  k : ℕ

/-- Advance the random cursor by `m` draws. -/
def RNG.bump (r : RNG) (m : ℕ) : RNG :=
  { r with k := r.k + m }

/-- Q-value table collaborator: the stored map `q` plus logs of every
read key, every written key-value pair, and the number of `save`
requests, so the frame behaviour of the agent is observable. -/
structure TTable (Obs : Type) where
  q : Obs → ℕ → Option ℚ
  reads : List (Obs × ℕ)
  writes : List ((Obs × ℕ) × ℚ)
  saves : ℕ

/-- Model of `table.get_q_value(observation, action)`: returns the
stored value (`none` models the `QValueNotFoundError` signal) and logs
the read. -/
def TTable.get_q_value {Obs : Type} (t : TTable Obs) (o : Obs) (a : ℕ) :
    Option ℚ × TTable Obs :=
  (t.q o a, { t with reads := t.reads ++ [(o, a)] })

/-- Model of `table.update_q_value(observation, action, value)`: an
unconditional upsert of the key, logged in `writes`. -/
def TTable.update_q_value {Obs : Type} [DecidableEq Obs] (t : TTable Obs)
    (o : Obs) (a : ℕ) (v : ℚ) : TTable Obs :=
  { t with
    q := fun o1 a1 => if o1 = o ∧ a1 = a then some v else t.q o1 a1,
    writes := t.writes ++ [((o, a), v)] }

/-- Model of `table.save()`: persistence is external, so only the
request is recorded. -/
def TTable.save {Obs : Type} (t : TTable Obs) : TTable Obs :=
  { t with saves := t.saves + 1 }

/-- Embedding of `SARSAZeroAgent.get_epsilon` (lines 13-37): linear
annealing of the exploration probability. -/
def get_epsilon (start_epsilon end_epsilon observation_number
    total_observations : ℚ) : ℚ :=
  let training_progress_fraction := observation_number / total_observations
  start_epsilon - (start_epsilon - end_epsilon) * training_progress_fraction

/-- Embedding of `SARSAZeroAgent.get_learning_rate` (lines 39-63):
linear annealing of the learning rate. -/
def get_learning_rate (start_learning_rate end_learning_rate
    observation_number total_observations : ℚ) : ℚ :=
  let training_progress_fraction := observation_number / total_observations
  start_learning_rate -
    (start_learning_rate - end_learning_rate) * training_progress_fraction

/-- Python's `max` over the values of a nonempty collection, as used on
`q_values_for_this_observation.values()` (line 91).  The `[]` case is
unreachable when the action count is at least 1 (Python would raise). -/
def pyMax : List ℚ → ℚ
  | [] => 0
  | x :: xs => xs.foldl max x

/-- The `for action in range(env.action_space.n)` loop of `get_action`
(lines 82-88): builds the association list of Q values in action order,
substituting 0 for a missing value, and threads the table (logging one
read per action). -/
def collect_q_values {Obs : Type} (t : TTable Obs) (obs : Obs) :
    List ℕ → List (ℕ × ℚ) × TTable Obs
  | [] => ([], t)
  | a :: rest =>
    match t.get_q_value obs a with
    | (some qv, t1) =>
      let (res, t2) := collect_q_values t1 obs rest
      ((a, qv) :: res, t2)
    | (none, t1) =>
      let (res, t2) := collect_q_values t1 obs rest
      ((a, (0 : ℚ)) :: res, t2)

/-- The greedy (exploitation) part of `get_action` (lines 79-101):
collect the Q values for all actions, take the maximum, collect the
tied actions, and choose one of them with one `random.choice` draw. -/
def greedy_action {Obs : Type} (n : ℕ) (t : TTable Obs) (obs : Obs)
    (r : RNG) : ℕ × RNG × TTable Obs :=
  let (q_values_for_this_observation, t1) :=
    collect_q_values t obs (List.range n)
  let max_q_value := pyMax (q_values_for_this_observation.map Prod.snd)
  let actions_with_max_q_value :=
    (q_values_for_this_observation.filter
      (fun p => p.2 = max_q_value)).map Prod.fst
  (actions_with_max_q_value.getD
      (r.un r.k % actions_with_max_q_value.length) 0,
    r.bump 1, t1)

/-- Embedding of `SARSAZeroAgent.get_action` (lines 65-101): with the
current uniform float strictly below epsilon, return a uniformly
sampled action (`env.action_space.sample()`, modelled as `un` modulo
the action count); otherwise act greedily. -/
def get_action {Obs : Type} (n : ℕ) (t : TTable Obs) (obs : Obs)
    (epsilon : ℚ) (r : RNG) : ℕ × RNG × TTable Obs :=
  if r.uf r.k < epsilon then
    ((r.bump 1).un (r.bump 1).k % n, r.bump 2, t)
  else
    greedy_action n t obs (r.bump 1)

/-- Embedding of `SARSAZeroAgent.update_table` (lines 103-140): the
SARSA(0) update.  The `try/except QValueNotFoundError` blocks become
matches on the `Option` results of the two reads. -/
def update_table {Obs : Type} [DecidableEq Obs] (t : TTable Obs)
    (discount_factor learning_rate : ℚ) (observation : Obs) (action : ℕ)
    (reward : ℚ) (done : Bool) (next_observation : Obs) (next_action : ℕ) :
    TTable Obs :=
  let (td_target, t1) :=
    if done then ((reward : ℚ), t)
    else
      match t.get_q_value next_observation next_action with
      | (some next_q_value, t1) =>
        (reward + discount_factor * next_q_value, t1)
      | (none, t1) => (reward, t1)
  let (updated_q_value, t2) :=
    match t1.get_q_value observation action with
    | (some q_value, t2) =>
      (learning_rate * td_target + q_value * (1 - learning_rate), t2)
    | (none, t2) => (learning_rate * td_target, t2)
  t2.update_q_value observation action updated_q_value

/-- Example table over natural-number observations, used to instantiate
theorems with hypotheses at concrete inputs. -/
def exTable : TTable ℕ :=
  { q := fun o a => if o = 0 ∧ a = 0 then some 2 else none,
    reads := [], writes := [], saves := 0 }

/-- C3: both schedules compute exactly
`start − (start − end) × (progress / horizon)`; with a positive horizon
the value at progress 0 is `start` and the value at progress `horizon`
is `end`, and no clamping happens at any other progress. -/
theorem claim_C3 (s e p h : ℚ) (hh : 0 < h) :
    get_epsilon s e p h = s - (s - e) * (p / h) ∧
    get_learning_rate s e p h = s - (s - e) * (p / h) ∧
    get_epsilon s e 0 h = s ∧
    get_epsilon s e h h = e ∧
    get_learning_rate s e 0 h = s ∧
    get_learning_rate s e h h = e := by
  have hne : h ≠ 0 := ne_of_gt hh
  refine ⟨rfl, rfl, ?_, ?_, ?_, ?_⟩ <;>
    simp [get_epsilon, get_learning_rate, div_self hne]

/-- Witness for C3 at `start = 3`, `end = 1`, `progress = 1`,
`horizon = 2`. -/
theorem claim_C3_witness :
    get_epsilon 3 1 (0 : ℚ) 2 = 3 ∧ get_epsilon 3 1 (2 : ℚ) 2 = 1 :=
  ⟨(claim_C3 3 1 1 2 (by norm_num)).2.2.1,
   (claim_C3 3 1 1 2 (by norm_num)).2.2.2.1⟩

/-- Helper: the value `update_table` stores for the current key, in the
`α·target + (1−α)·old` shape of the spec. -/
theorem update_table_q_self {Obs : Type} [DecidableEq Obs]
    (t : TTable Obs) (γ α : ℚ) (o : Obs) (a : ℕ) (r : ℚ) (done : Bool)
    (no : Obs) (na : ℕ) :
    (update_table t γ α o a r done no na).q o a =
      some (α *
          (if done = false then
            match t.q no na with
            | some nq => r + γ * nq
            | none => r
          else r) +
        (1 - α) * ((t.q o a).getD 0)) := by
  cases done <;>
    rcases hn : t.q no na with _ | nq <;>
    rcases hc : t.q o a with _ | qv <;>
      simp [update_table, TTable.update_q_value, TTable.get_q_value,
        hn, hc] <;> ring

/-- C1: `update_table` writes for the current key exactly
`α·target + (1−α)·old`, where `target = r + γ·next` when the transition
is non-terminal and the next estimate is known and `target = r`
otherwise (in particular on a terminal transition the next estimate is
never added, even when present), and `old` is the prior estimate or 0
when unknown. -/
theorem claim_C1 {Obs : Type} [DecidableEq Obs] (t : TTable Obs)
    (γ α : ℚ) (o : Obs) (a : ℕ) (r : ℚ) (done : Bool) (no : Obs)
    (na : ℕ) :
    (update_table t γ α o a r done no na).q o a =
      some (α *
          (if done = false then
            match t.q no na with
            | some nq => r + γ * nq
            | none => r
          else r) +
        (1 - α) * ((t.q o a).getD 0)) :=
  update_table_q_self t γ α o a r done no na

/-- C8: every call to `update_table` logs exactly the reads the source
performs (the next key only on non-terminal transitions, then the
current key), appends exactly one write (for the current key), requests
no save, and leaves the stored value of every other key unchanged. -/
theorem claim_C8 {Obs : Type} [DecidableEq Obs] (t : TTable Obs)
    (γ α : ℚ) (o : Obs) (a : ℕ) (r : ℚ) (done : Bool) (no : Obs)
    (na : ℕ) :
    (update_table t γ α o a r done no na).reads =
      t.reads ++ (if done then [] else [(no, na)]) ++ [(o, a)] ∧
    (∃ v, (update_table t γ α o a r done no na).writes =
      t.writes ++ [((o, a), v)]) ∧
    (update_table t γ α o a r done no na).saves = t.saves ∧
    ∀ o1 a1, ¬(o1 = o ∧ a1 = a) →
      (update_table t γ α o a r done no na).q o1 a1 = t.q o1 a1 := by
  refine ⟨?_, ?_, ?_, ?_⟩ <;>
    cases done <;>
    rcases hn : t.q no na with _ | nq <;>
    rcases hc : t.q o a with _ | qv <;>
      simp [update_table, TTable.update_q_value, TTable.get_q_value,
        hn, hc]
  all_goals intro o1 a1 h1 h2; simp [h1, h2] at *

/-- Witness for C8: the frame part at a concrete table and a key other
than the written one. -/
theorem claim_C8_witness :
    (update_table exTable (9/10) (1/2) 0 0 1 false 0 1).q 1 1 =
      exTable.q 1 1 :=
  (claim_C8 exTable (9/10) (1/2) 0 0 1 false 0 1).2.2.2 1 1 (by decide)

/-- C10: the write of `update_table` is unconditional: after every call
the current key is present, and with learning rate 0 and an unknown
prior the key is bound to an explicit 0, so an absent key and a stored
0 are distinguishable states after an update. -/
theorem claim_C10 {Obs : Type} [DecidableEq Obs] (t : TTable Obs)
    (γ α : ℚ) (o : Obs) (a : ℕ) (r : ℚ) (done : Bool) (no : Obs)
    (na : ℕ) :
    ((update_table t γ α o a r done no na).q o a).isSome = true ∧
    (α = 0 → t.q o a = none →
      (update_table t γ α o a r done no na).q o a = some 0) := by
  constructor
  · rw [update_table_q_self t γ α o a r done no na]
    rfl
  · intro hα hc
    cases done <;>
      rcases hn : t.q no na with _ | nq <;>
        simp [update_table, TTable.update_q_value, TTable.get_q_value,
          hn, hc, hα]

/-- Witness for C10 at a concrete table with an unknown prior. -/
theorem claim_C10_witness :
    (update_table exTable (9/10) 0 1 0 5 false 0 0).q 1 0 = some 0 :=
  (claim_C10 exTable (9/10) 0 1 0 5 false 0 0).2 rfl rfl

/-- The stored estimate of an action, or 0 when unknown: the value the
greedy branch effectively assigns to each action. -/
def q_value_or_zero {Obs : Type} (t : TTable Obs) (obs : Obs) (a : ℕ) : ℚ :=
  (t.q obs a).getD 0

/-- The set of actions attaining the maximal effective estimate, in
action order: the list `actions_with_max_q_value` of the source. -/
def tied_actions {Obs : Type} (n : ℕ) (t : TTable Obs) (obs : Obs) :
    List ℕ :=
  (List.range n).filter
    (fun a => q_value_or_zero t obs a =
      pyMax ((List.range n).map (q_value_or_zero t obs)))

theorem le_foldl_max (l : List ℚ) : ∀ a : ℚ, a ≤ l.foldl max a := by
  induction l with
  | nil => intro a; simp
  | cons x xs ih =>
    intro a
    exact le_trans (le_max_left a x) (ih (max a x))

theorem mem_le_foldl_max (l : List ℚ) :
    ∀ (a y : ℚ), y ∈ l → y ≤ l.foldl max a := by
  induction l with
  | nil => intro a y h; simp at h
  | cons x xs ih =>
    intro a y h
    rcases List.mem_cons.mp h with h | h
    · subst h
      exact le_trans (le_max_right a y) (le_foldl_max xs (max a y))
    · exact ih (max a x) y h

theorem foldl_max_eq_or_mem (l : List ℚ) :
    ∀ a : ℚ, l.foldl max a = a ∨ l.foldl max a ∈ l := by
  induction l with
  | nil => intro a; left; rfl
  | cons x xs ih =>
    intro a
    rw [List.foldl_cons]
    rcases ih (max a x) with h | h
    · rw [h]
      rcases max_choice a x with hm | hm
      · left; exact hm
      · right; rw [hm]; exact List.mem_cons_self x xs
    · right; exact List.mem_cons_of_mem x h

/-- Python's `max` bounds every element of the list. -/
theorem pyMax_is_ub {l : List ℚ} {y : ℚ} (h : y ∈ l) : y ≤ pyMax l := by
  cases l with
  | nil => simp at h
  | cons x xs =>
    rcases List.mem_cons.mp h with h | h
    · subst h; exact le_foldl_max xs y
    · exact mem_le_foldl_max xs x y h

/-- Python's `max` of a nonempty list is attained. -/
theorem pyMax_mem {l : List ℚ} (h : l ≠ []) : pyMax l ∈ l := by
  cases l with
  | nil => exact absurd rfl h
  | cons x xs =>
    rcases foldl_max_eq_or_mem xs x with h1 | h1
    · simp [pyMax, h1]
    · exact List.mem_cons_of_mem x h1

/-- The `for` loop of the greedy branch builds exactly the association
list of effective estimates in action order, and its only table effect
is one logged read per visited action. -/
theorem collect_q_spec {Obs : Type} (obs : Obs) (l : List ℕ) :
    ∀ t : TTable Obs,
      collect_q_values t obs l =
        (l.map (fun a => (a, q_value_or_zero t obs a)),
         { t with reads := t.reads ++ l.map (fun a => (obs, a)) }) := by
  induction l with
  | nil => intro t; cases t; simp [collect_q_values]
  | cons a rest ih =>
    intro t
    rcases hq : t.q obs a with _ | qv <;>
      cases t <;>
        simp_all [collect_q_values, TTable.get_q_value, ih,
          q_value_or_zero]

theorem filter_pair_map (g : ℕ → ℚ) (m : ℚ) (l : List ℕ) :
    ((l.map (fun a => (a, g a))).filter (fun p => p.2 = m)).map
        Prod.fst =
      l.filter (fun a => g a = m) := by
  induction l with
  | nil => rfl
  | cons a rest ih =>
    by_cases h : g a = m <;> simp [List.filter, h, ih]

/-- The greedy branch in closed form: it returns the element of the
tied-action list selected by the next choice draw, advances the random
cursor by one, and logs one read per action. -/
theorem greedy_action_spec {Obs : Type} (n : ℕ) (t : TTable Obs)
    (obs : Obs) (r : RNG) :
    greedy_action n t obs r =
      ((tied_actions n t obs).getD
          (r.un r.k % (tied_actions n t obs).length) 0,
        r.bump 1,
        { t with
          reads := t.reads ++ (List.range n).map (fun a => (obs, a)) }) := by
  simp only [greedy_action, collect_q_spec obs (List.range n) t]
  have hmap : ((List.range n).map
      (fun a => (a, q_value_or_zero t obs a))).map Prod.snd =
      (List.range n).map (q_value_or_zero t obs) := by
    simp [List.map_map]
  simp only [hmap, filter_pair_map (q_value_or_zero t obs)]
  rfl

/-- The tied-action list is never empty when there is at least one
action. -/
theorem tied_actions_ne_nil {Obs : Type} (n : ℕ) (t : TTable Obs)
    (obs : Obs) (hn : 1 ≤ n) : tied_actions n t obs ≠ [] := by
  have hl : (List.range n).map (q_value_or_zero t obs) ≠ [] := by
    simp [List.map_eq_nil_iff, List.range_eq_nil]
    omega
  have hmem := pyMax_mem hl
  rcases List.mem_map.mp hmem with ⟨c, hc, hceq⟩
  intro hnil
  have : c ∈ tied_actions n t obs := by
    simp [tied_actions, List.mem_filter, hc, hceq]
  simp [hnil] at this

/-- Membership in the tied-action list is exactly attaining the maximal
effective estimate. -/
theorem mem_tied_actions {Obs : Type} (n : ℕ) (t : TTable Obs)
    (obs : Obs) (hn : 1 ≤ n) (a : ℕ) :
    a ∈ tied_actions n t obs ↔
      a < n ∧ ∀ b, b < n →
        q_value_or_zero t obs b ≤ q_value_or_zero t obs a := by
  have hl : (List.range n).map (q_value_or_zero t obs) ≠ [] := by
    simp [List.map_eq_nil_iff, List.range_eq_nil]
    omega
  constructor
  · intro h
    rcases List.mem_filter.mp h with ⟨ha, hmax⟩
    have ha' : a < n := List.mem_range.mp ha
    have hmax' : q_value_or_zero t obs a =
        pyMax ((List.range n).map (q_value_or_zero t obs)) := by
      simpa using hmax
    refine ⟨ha', fun b hb => ?_⟩
    rw [hmax']
    exact pyMax_is_ub (List.mem_map.mpr ⟨b, List.mem_range.mpr hb, rfl⟩)
  · rintro ⟨ha, hub⟩
    have h1 : q_value_or_zero t obs a ≤
        pyMax ((List.range n).map (q_value_or_zero t obs)) :=
      pyMax_is_ub (List.mem_map.mpr ⟨a, List.mem_range.mpr ha, rfl⟩)
    rcases List.mem_map.mp (pyMax_mem hl) with ⟨c, hc, hceq⟩
    have h2 : pyMax ((List.range n).map (q_value_or_zero t obs)) ≤
        q_value_or_zero t obs a := by
      rw [← hceq]
      exact hub c (List.mem_range.mp hc)
    simp [tied_actions, List.mem_filter, List.mem_range, ha,
      le_antisymm h1 h2]

/-- The element selected from a nonempty list by a modular index is a
member of the list. -/
theorem getD_mod_mem {l : List ℕ} (i : ℕ) (h : l ≠ []) :
    l.getD (i % l.length) 0 ∈ l := by
  have hlen : 0 < l.length := List.length_pos.mpr h
  have hidx : i % l.length < l.length := Nat.mod_lt i hlen
  rw [List.getD_eq_getElem l 0 hidx]
  exact List.getElem_mem hidx

/-- Example random source, used to instantiate theorems with
hypotheses at concrete inputs. -/
def exRNG : RNG :=
  { uf := fun _ => 0, un := fun _ => 0, k := 0 }

/-- C2: in the exploitation branch each action is effectively assigned
its stored estimate or 0, the tied-action list is exactly the set of
actions attaining the maximal effective estimate, the returned action
lies in that list, a unique maximiser is always returned, and with all
values unknown the tied list is the full action range. -/
theorem claim_C2 {Obs : Type} (n : ℕ) (t : TTable Obs) (obs : Obs)
    (ε : ℚ) (r : RNG) (hn : 1 ≤ n) (hgreedy : ¬ r.uf r.k < ε) :
    (∀ a, a ∈ tied_actions n t obs ↔
        a < n ∧ ∀ b, b < n →
          q_value_or_zero t obs b ≤ q_value_or_zero t obs a) ∧
    (get_action n t obs ε r).1 ∈ tied_actions n t obs ∧
    (∀ k, k < n →
      (∀ b, b < n → b ≠ k →
        q_value_or_zero t obs b < q_value_or_zero t obs k) →
      (get_action n t obs ε r).1 = k) ∧
    ((∀ a, a < n → t.q obs a = none) →
      tied_actions n t obs = List.range n) := by
  have hga : get_action n t obs ε r = greedy_action n t obs (r.bump 1) := by
    simp [get_action, hgreedy]
  have hne := tied_actions_ne_nil n t obs hn
  have hmem_res : (get_action n t obs ε r).1 ∈ tied_actions n t obs := by
    rw [hga, greedy_action_spec]
    exact getD_mod_mem _ hne
  refine ⟨fun a => mem_tied_actions n t obs hn a, hmem_res, ?_, ?_⟩
  · intro k hk huniq
    have hall : ∀ a ∈ tied_actions n t obs, a = k := by
      intro a ha
      rcases (mem_tied_actions n t obs hn a).mp ha with ⟨han, hub⟩
      by_contra hak
      exact lt_irrefl _ (lt_of_le_of_lt (hub k hk) (huniq a han hak))
    exact hall _ hmem_res
  · intro hunknown
    have hq0 : ∀ a, a < n → q_value_or_zero t obs a = 0 := by
      intro a ha
      simp [q_value_or_zero, hunknown a ha]
    have hl : (List.range n).map (q_value_or_zero t obs) ≠ [] := by
      simp [List.map_eq_nil_iff, List.range_eq_nil]
      omega
    have hpy : pyMax ((List.range n).map (q_value_or_zero t obs)) = 0 := by
      rcases List.mem_map.mp (pyMax_mem hl) with ⟨c, hc, hceq⟩
      rw [← hceq, hq0 c (List.mem_range.mp hc)]
    unfold tied_actions
    rw [hpy]
    apply List.filter_eq_self.mpr
    intro a ha
    simp [hq0 a (List.mem_range.mp ha)]

/-- Witness for C2: with a concrete table whose unique maximum over two
actions is at action 0, exploitation with epsilon 0 returns action 0. -/
theorem claim_C2_witness :
    (get_action 2 exTable 0 0 exRNG).1 = 0 :=
  (claim_C2 2 exTable 0 0 exRNG (by decide) (by simp [exRNG])).2.2.1 0
    (by decide) (by decide)

/-- C4: for at least one action, `get_action` always returns an action
in range (and in particular never surfaces a missing-value condition),
the exploration branch is taken exactly when the uniform sample is
strictly below epsilon, and with epsilon 0 and a nonnegative sample the
exploitation branch is always taken. -/
theorem claim_C4 {Obs : Type} (n : ℕ) (t : TTable Obs) (obs : Obs)
    (ε : ℚ) (r : RNG) (hn : 1 ≤ n) :
    (get_action n t obs ε r).1 < n ∧
    (r.uf r.k < ε →
      (get_action n t obs ε r).1 = r.un (r.k + 1) % n) ∧
    (¬ r.uf r.k < ε →
      get_action n t obs ε r = greedy_action n t obs (r.bump 1)) ∧
    (ε = 0 → 0 ≤ r.uf r.k →
      get_action n t obs ε r = greedy_action n t obs (r.bump 1)) := by
  refine ⟨?_, ?_, ?_, ?_⟩
  · by_cases hε : r.uf r.k < ε
    · simp only [get_action, if_pos hε]
      exact Nat.mod_lt _ (by omega)
    · have hga : get_action n t obs ε r =
          greedy_action n t obs (r.bump 1) := by
        simp [get_action, hε]
      have hmem : (get_action n t obs ε r).1 ∈ tied_actions n t obs := by
        rw [hga, greedy_action_spec]
        exact getD_mod_mem _ (tied_actions_ne_nil n t obs hn)
      exact ((mem_tied_actions n t obs hn _).mp hmem).1
  · intro hε
    simp [get_action, hε, RNG.bump]
  · intro hε
    simp [get_action, hε]
  · intro hε0 hug
    subst hε0
    have hnot : ¬ r.uf r.k < 0 := not_lt.mpr hug
    simp [get_action, hnot]

/-- Witness for C4 at two actions, a concrete table, epsilon 0 and a
concrete random source. -/
theorem claim_C4_witness :
    (get_action 2 exTable 0 0 exRNG).1 < 2 :=
  (claim_C4 2 exTable 0 0 exRNG (by decide)).1

/-- Operations issued against a Gym environment, logged so that the
resource claims of the loops are observable. -/
inductive EnvOp
  | reset
  | step
  | render
  | close
deriving DecidableEq

/-- Model of a Gym environment: the action count and a stream of
episodes.  Episode `i` has the observation its `reset` returns and a
finite list of steps; step `j` maps the agent's action to the next
observation and the reward, and the `done` flag of `step` is true
exactly on the last list entry.  Episode finiteness is the termination
precondition the spec places on the environments. -/
structure GymEnv (Obs : Type) where
  n : ℕ
  episodes : ℕ → Obs × List (ℕ → Obs × ℚ)

/-- Inner `while True` loop of `SARSAZeroAgent.test` (lines 161-178):
optionally render, select an action, step the environment, accumulate
the reward, and stop when the environment signals `done`.  Returns the
episode's accumulated reward, the threaded table and random source, and
the log of environment operations. -/
def run_test_episode {Obs : Type} (n : ℕ) (ε : ℚ) (render : Bool) :
    TTable Obs → RNG → Obs → List (ℕ → Obs × ℚ) →
    ℚ × TTable Obs × RNG × List EnvOp
  | t, r, _, [] => (0, t, r, [])
  | t, r, obs, f :: rest =>
    let ops0 : List EnvOp := if render then [EnvOp.render] else []
    let ga := get_action n t obs ε r
    let sr := f ga.1
    match rest with
    | [] => (sr.2, ga.2.2, ga.2.1, ops0 ++ [EnvOp.step])
    | g :: rest1 =>
      let rec1 :=
        run_test_episode n ε render ga.2.2 ga.2.1 sr.1 (g :: rest1)
      (sr.2 + rec1.1, rec1.2.1, rec1.2.2.1,
        ops0 ++ [EnvOp.step] ++ rec1.2.2.2)

/-- The `for episode_number in range(total_number_of_episodes)` loop of
`SARSAZeroAgent.test` (lines 156-178), with the running episode index
and the reward accumulator made explicit. -/
def test_loop {Obs : Type} (env : GymEnv Obs) (ε : ℚ) (render : Bool) :
    ℕ → ℕ → ℚ → TTable Obs → RNG → ℚ × TTable Obs × RNG × List EnvOp
  | _, 0, acc, t, r => (acc, t, r, [])
  | i, c + 1, acc, t, r =>
    let ep := env.episodes i
    let run1 := run_test_episode env.n ε render t r ep.1 ep.2
    let rec1 :=
      test_loop env ε render (i + 1) c (acc + run1.1) run1.2.1 run1.2.2.1
    (rec1.1, rec1.2.1, rec1.2.2.1,
      (EnvOp.reset :: run1.2.2.2) ++ rec1.2.2.2)

/-- Embedding of `SARSAZeroAgent.test` (lines 142-184): run the
episodes, close the environment, and return the average reward per
episode together with the threaded table, random source and operation
log. -/
def test {Obs : Type} (env : GymEnv Obs) (total_number_of_episodes : ℕ)
    (t : TTable Obs) (ε : ℚ) (render : Bool) (r : RNG) :
    ℚ × TTable Obs × RNG × List EnvOp :=
  let lp := test_loop env ε render 0 total_number_of_episodes 0 t r
  (lp.1 / (total_number_of_episodes : ℚ), lp.2.1, lp.2.2.1,
    lp.2.2.2 ++ [EnvOp.close])

/-- The per-episode rewards the test loop observes, as a list: the
reward accumulated by `run_test_episode` on each successive episode,
with the table and random source threaded exactly as in `test_loop`. -/
def episode_rewards {Obs : Type} (env : GymEnv Obs) (ε : ℚ)
    (render : Bool) : ℕ → ℕ → TTable Obs → RNG → List ℚ
  | _, 0, _, _ => []
  | i, c + 1, t, r =>
    let ep := env.episodes i
    let run1 := run_test_episode env.n ε render t r ep.1 ep.2
    run1.1 :: episode_rewards env ε render (i + 1) c run1.2.1 run1.2.2.1

/-- Frame of one `get_action` call on the table: the stored map, the
writes and the saves are untouched; only reads are logged. -/
theorem get_action_frame {Obs : Type} (n : ℕ) (t : TTable Obs)
    (obs : Obs) (ε : ℚ) (r : RNG) :
    (get_action n t obs ε r).2.2.q = t.q ∧
    (get_action n t obs ε r).2.2.writes = t.writes ∧
    (get_action n t obs ε r).2.2.saves = t.saves ∧
    (get_action n t obs ε r).2.2.reads =
      t.reads ++ (if r.uf r.k < ε then []
        else (List.range n).map (fun a => (obs, a))) := by
  by_cases hε : r.uf r.k < ε
  · simp [get_action, hε]
  · simp [get_action, hε, greedy_action_spec]

/-- One test episode touches the table only through `get_action`: the
stored map, the writes and the saves are unchanged. -/
theorem run_test_episode_table {Obs : Type} (n : ℕ) (ε : ℚ)
    (render : Bool) :
    ∀ (steps : List (ℕ → Obs × ℚ)) (t : TTable Obs) (r : RNG) (o : Obs),
      (run_test_episode n ε render t r o steps).2.1.q = t.q ∧
      (run_test_episode n ε render t r o steps).2.1.writes = t.writes ∧
      (run_test_episode n ε render t r o steps).2.1.saves = t.saves := by
  intro steps
  induction steps with
  | nil => intro t r o; exact ⟨rfl, rfl, rfl⟩
  | cons f rest ih =>
    intro t r o
    rcases hga : get_action n t o ε r with ⟨a, r1, t1⟩
    have hfr := get_action_frame n t o ε r
    simp only [hga] at hfr
    cases rest with
    | nil =>
      simp only [run_test_episode, hga]
      exact ⟨hfr.1, hfr.2.1, hfr.2.2.1⟩
    | cons g rest1 =>
      have hih := ih t1 r1 (f a).1
      simp only [run_test_episode, hga]
      exact ⟨hih.1.trans hfr.1, hih.2.1.trans hfr.2.1,
        hih.2.2.trans hfr.2.2.1⟩

/-- A test episode whose every step yields the constant reward `c`
accumulates exactly `length × c`. -/
theorem run_test_episode_const {Obs : Type} (n : ℕ) (ε : ℚ)
    (render : Bool) (c : ℚ) :
    ∀ (steps : List (ℕ → Obs × ℚ)),
      (∀ g ∈ steps, ∀ a, (g a).2 = c) →
      ∀ (t : TTable Obs) (r : RNG) (o : Obs),
        (run_test_episode n ε render t r o steps).1 =
          (steps.length : ℚ) * c := by
  intro steps
  induction steps with
  | nil => intro _ t r o; simp [run_test_episode]
  | cons f rest ih =>
    intro hc t r o
    rcases hga : get_action n t o ε r with ⟨a, r1, t1⟩
    have hf : (f a).2 = c := hc f (List.mem_cons_self f rest) a
    cases rest with
    | nil =>
      simp only [run_test_episode, hga]
      simp [hf]
    | cons g rest1 =>
      have hc1 : ∀ x ∈ g :: rest1, ∀ a1, (x a1).2 = c := fun x hx =>
        hc x (List.mem_cons_of_mem f hx)
      have hih := ih hc1 t1 r1 (f a).1
      simp only [run_test_episode, hga]
      simp only [hf, hih, List.length_cons]
      push_cast
      ring

/-- The accumulator form of the test loop: its result is the incoming
accumulator plus the sum of the per-episode rewards. -/
theorem test_loop_sum {Obs : Type} (env : GymEnv Obs) (ε : ℚ)
    (render : Bool) :
    ∀ (c i : ℕ) (acc : ℚ) (t : TTable Obs) (r : RNG),
      (test_loop env ε render i c acc t r).1 =
        acc + (episode_rewards env ε render i c t r).sum := by
  intro c
  induction c with
  | zero => intro i acc t r; simp [test_loop, episode_rewards]
  | succ m ih =>
    intro i acc t r
    rcases he : env.episodes i with ⟨o, steps⟩
    rcases hrun : run_test_episode env.n ε render t r o steps
      with ⟨epr, t1, r1, ops⟩
    have hih := ih (i + 1) (acc + epr) t1 r1
    simp only [test_loop, episode_rewards, he, hrun]
    rw [hih, List.sum_cons]
    ring

/-- The test loop leaves the stored map, the writes and the saves of
the table unchanged. -/
theorem test_loop_table {Obs : Type} (env : GymEnv Obs) (ε : ℚ)
    (render : Bool) :
    ∀ (c i : ℕ) (acc : ℚ) (t : TTable Obs) (r : RNG),
      (test_loop env ε render i c acc t r).2.1.q = t.q ∧
      (test_loop env ε render i c acc t r).2.1.writes = t.writes ∧
      (test_loop env ε render i c acc t r).2.1.saves = t.saves := by
  intro c
  induction c with
  | zero => intro i acc t r; exact ⟨rfl, rfl, rfl⟩
  | succ m ih =>
    intro i acc t r
    rcases he : env.episodes i with ⟨o, steps⟩
    rcases hrun : run_test_episode env.n ε render t r o steps
      with ⟨epr, t1, r1, ops⟩
    have hep := run_test_episode_table env.n ε render steps t r o
    simp only [hrun] at hep
    have hih := ih (i + 1) (acc + epr) t1 r1
    simp only [test_loop, he, hrun]
    exact ⟨hih.1.trans hep.1, hih.2.1.trans hep.2.1,
      hih.2.2.trans hep.2.2⟩

theorem getLast_append_close (l : List EnvOp) :
    (l ++ [EnvOp.close]).getLast? = some EnvOp.close :=
  List.getLast?_concat l

/-- Concrete two-step episode with constant reward 2, used as a
witness environment. -/
def exSteps : List (ℕ → ℕ × ℚ) := [fun _ => (0, 2), fun _ => (0, 2)]

/-- Concrete single-action environment whose every episode is
`exSteps`. -/
def exEnv : GymEnv ℕ := { n := 1, episodes := fun _ => (0, exSteps) }

/-- C5: for a positive episode count, `test` returns exactly the sum of
the rewards received over the episodes divided by the episode count,
its last environment operation is `close`, it performs no table write
(no learning), and on a single-episode environment of length `L` with
constant per-step reward `c` it returns exactly `L × c`. -/
theorem claim_C5 {Obs : Type} (env : GymEnv Obs) (N : ℕ) (t : TTable Obs)
    (ε : ℚ) (render : Bool) (r : RNG) (hN : 0 < N) :
    (test env N t ε render r).1 =
      (episode_rewards env ε render 0 N t r).sum / (N : ℚ) ∧
    (test env N t ε render r).2.2.2.getLast? = some EnvOp.close ∧
    (test env N t ε render r).2.1.writes = t.writes ∧
    (∀ (o : Obs) (steps : List (ℕ → Obs × ℚ)) (c : ℚ),
      env.episodes 0 = (o, steps) →
      (∀ g ∈ steps, ∀ a, (g a).2 = c) →
      (test env 1 t ε render r).1 = (steps.length : ℚ) * c) := by
  refine ⟨?_, ?_, ?_, ?_⟩
  · have h := test_loop_sum env ε render N 0 0 t r
    simp only [test]
    rw [h, zero_add]
  · simp only [test]
    exact getLast_append_close _
  · simp only [test]
    exact (test_loop_table env ε render N 0 0 t r).2.1
  · intro o steps c he hc
    have h := test_loop_sum env ε render 1 0 0 t r
    simp only [test]
    rw [h, zero_add]
    simp only [episode_rewards, he]
    rw [List.sum_cons, List.sum_nil,
      run_test_episode_const env.n ε render c steps hc t r o]
    simp

/-- Witness for C5 on a concrete one-episode environment of length 2
and constant reward 2. -/
theorem claim_C5_witness :
    (test exEnv 1 exTable 0 false exRNG).1 = (exSteps.length : ℚ) * 2 :=
  (claim_C5 exEnv 1 exTable 0 false exRNG (by decide)).2.2.2 0 exSteps 2
    rfl
    (by
      intro g hg a
      have hgeq : g = fun _ => ((0 : ℕ), (2 : ℚ)) := by
        simpa [exSteps] using hg
      subst hgeq
      rfl)

/-- C9: `get_action` only reads the table — the stored map, writes and
saves are untouched and at most one read per action is logged — and
consequently the whole evaluation loop leaves the table state
unchanged. -/
theorem claim_C9 {Obs : Type} (n : ℕ) (t : TTable Obs) (obs : Obs)
    (ε : ℚ) (r : RNG) (env : GymEnv Obs) (N : ℕ) (render : Bool) :
    (get_action n t obs ε r).2.2.q = t.q ∧
    (get_action n t obs ε r).2.2.writes = t.writes ∧
    (get_action n t obs ε r).2.2.saves = t.saves ∧
    (get_action n t obs ε r).2.2.reads.length ≤ t.reads.length + n ∧
    (test env N t ε render r).2.1.q = t.q ∧
    (test env N t ε render r).2.1.writes = t.writes ∧
    (test env N t ε render r).2.1.saves = t.saves := by
  have hfr := get_action_frame n t obs ε r
  have htl := test_loop_table env ε render N 0 0 t r
  refine ⟨hfr.1, hfr.2.1, hfr.2.2.1, ?_, ?_, ?_, ?_⟩
  · rw [hfr.2.2.2]
    by_cases hε : r.uf r.k < ε <;>
      simp [hε, List.length_append]
  · simp only [test]
    exact htl.1
  · simp only [test]
    exact htl.2.1
  · simp only [test]
    exact htl.2.2

/-- The stored map of the table is unchanged by a whole `test` call. -/
theorem test_table_q {Obs : Type} (env : GymEnv Obs) (N : ℕ)
    (t : TTable Obs) (ε : ℚ) (render : Bool) (r : RNG) :
    (test env N t ε render r).2.1.q = t.q := by
  simp only [test]
  exact (test_loop_table env ε render N 0 0 t r).1

/-- Parameters of `SARSAZeroAgent.train` (lines 186-218), minus the log
directory paths, which only name external instrumentation. -/
structure TrainArgs (Obs : Type) where
  discount_factor : ℚ
  start_learning_rate : ℚ
  end_learning_rate : ℚ
  start_epsilon : ℚ
  end_epsilon : ℚ
  learning_env : GymEnv Obs
  testing_env : GymEnv Obs
  total_observations : ℕ
  test_interval : ℕ
  total_number_of_testing_episodes : ℕ
  table_saving_interval : ℕ

/-- Mutable state of the training loop: the table, the random source,
and the two counters of lines 221-224. -/
structure TrainSt (Obs : Type) where
  table : TTable Obs
  rng : RNG
  observation_number : ℕ
  episode_number : ℕ

/-- Result of one iteration of the inner per-step cycle of `train`
(lines 256-325, up to but excluding the `done` handling), exposing the
schedule values the iteration used. -/
structure StepOut (Obs : Type) where
  st : TrainSt Obs
  next_observation : Obs
  next_action : ℕ
  reward : ℚ
  epsilon_used : ℚ
  learning_rate_used : ℚ

/-- One iteration of the inner cycle of `train` (lines 256-325): step
the environment, recompute epsilon at the current counter, select the
next action, compute the learning rate at the current counter, apply
the SARSA update, increment the observation counter, and run a testing
round when the counter hits the test interval. -/
def learn_step {Obs : Type} [DecidableEq Obs] (A : TrainArgs Obs)
    (st : TrainSt Obs) (observation : Obs) (action : ℕ)
    (f : ℕ → Obs × ℚ) (done : Bool) : StepOut Obs :=
  let sr := f action
  let epsilon := get_epsilon A.start_epsilon A.end_epsilon
    (st.observation_number : ℚ) (A.total_observations : ℚ)
  let ga := get_action A.learning_env.n st.table sr.1 epsilon st.rng
  let learning_rate := get_learning_rate A.start_learning_rate
    A.end_learning_rate (st.observation_number : ℚ)
    (A.total_observations : ℚ)
  let t2 := update_table ga.2.2 A.discount_factor learning_rate
    observation action sr.2 done sr.1 ga.1
  let obs_num := st.observation_number + 1
  let tr :=
    if obs_num % A.test_interval = 0 then
      let ts := test A.testing_env A.total_number_of_testing_episodes
        t2 0 false ga.2.1
      (ts.2.1, ts.2.2.1)
    else (t2, ga.2.1)
  { st :=
      { table := tr.1, rng := tr.2, observation_number := obs_num,
        episode_number := st.episode_number },
    next_observation := sr.1, next_action := ga.1, reward := sr.2,
    epsilon_used := epsilon, learning_rate_used := learning_rate }

/-- The inner `while True` loop of `train` (lines 256-335): iterate
`learn_step` along the episode's steps; on the final (`done`) step,
increment the episode counter, save the table at the configured episode
interval, and leave the loop. -/
def learn_episode_go {Obs : Type} [DecidableEq Obs] (A : TrainArgs Obs) :
    TrainSt Obs → Obs → ℕ → ℚ → List (ℕ → Obs × ℚ) → TrainSt Obs
  | st, _, _, _, [] => st
  | st, observation, action, acc, f :: rest =>
    let out := learn_step A st observation action f rest.isEmpty
    if rest.isEmpty then
      let ep1 := out.st.episode_number + 1
      let tb :=
        if ep1 % A.table_saving_interval = 0 then out.st.table.save
        else out.st.table
      { out.st with episode_number := ep1, table := tb }
    else
      learn_episode_go A out.st out.next_observation out.next_action
        (acc + out.reward) rest

/-- One outer iteration of `train` (lines 238-344): reset the learning
environment, select the first action at the current schedule value, and
run the episode to completion. -/
def run_learning_episode {Obs : Type} [DecidableEq Obs]
    (A : TrainArgs Obs) (st : TrainSt Obs) : TrainSt Obs :=
  let ep := A.learning_env.episodes (st.episode_number - 1)
  let epsilon := get_epsilon A.start_epsilon A.end_epsilon
    (st.observation_number : ℚ) (A.total_observations : ℚ)
  let ga := get_action A.learning_env.n st.table ep.1 epsilon st.rng
  learn_episode_go A { st with table := ga.2.2, rng := ga.2.1 } ep.1
    ga.1 0 ep.2

/-- The outer `while observation_number < total_observations` loop of
`train` (line 238), realized with an episode-count bound `fuel`: `none`
means the bound was too small for the loop to finish.  The halting
claim is that `fuel = total_observations` always suffices, because each
episode advances the observation counter by at least one. -/
def train_go {Obs : Type} [DecidableEq Obs] (A : TrainArgs Obs) :
    ℕ → TrainSt Obs → Option (TrainSt Obs)
  | 0, st =>
    if st.observation_number < A.total_observations then none else some st
  | fuel + 1, st =>
    if st.observation_number < A.total_observations then
      train_go A fuel (run_learning_episode A st)
    else some st

/-- Result of `train`: final state plus the closing of the learning
environment (line 346) and of the testing environment (line 354). -/
structure TrainResult (Obs : Type) where
  st : TrainSt Obs
  learning_env_closed : Bool
  testing_env_closed : Bool

/-- Embedding of `SARSAZeroAgent.train` (lines 186-354): counters start
at 0 and 1, the outer loop runs until the observation budget is
exhausted, then both environments are closed. -/
def train {Obs : Type} [DecidableEq Obs] (A : TrainArgs Obs)
    (table : TTable Obs) (r : RNG) (fuel : ℕ) :
    Option (TrainResult Obs) :=
  match train_go A fuel
      { table := table, rng := r, observation_number := 0,
                episode_number := 1 } with
  | some st =>
    some
      { st := st, learning_env_closed := true,
        testing_env_closed := true }
  | none => none

/-- One inner-cycle iteration advances the observation counter by
exactly one. -/
theorem learn_step_obs_num {Obs : Type} [DecidableEq Obs]
    (A : TrainArgs Obs) (st : TrainSt Obs) (observation : Obs)
    (action : ℕ) (f : ℕ → Obs × ℚ) (done : Bool) :
    (learn_step A st observation action f done).st.observation_number =
      st.observation_number + 1 := rfl

/-- One inner-cycle iteration leaves the episode counter unchanged
(it is only advanced on the `done` branch of the inner loop). -/
theorem learn_step_ep_num {Obs : Type} [DecidableEq Obs]
    (A : TrainArgs Obs) (st : TrainSt Obs) (observation : Obs)
    (action : ℕ) (f : ℕ → Obs × ℚ) (done : Bool) :
    (learn_step A st observation action f done).st.episode_number =
      st.episode_number := rfl

/-- The inner loop advances the observation counter by exactly the
episode length. -/
theorem learn_episode_go_obs_num {Obs : Type} [DecidableEq Obs]
    (A : TrainArgs Obs) :
    ∀ (steps : List (ℕ → Obs × ℚ)) (st : TrainSt Obs) (o : Obs) (a : ℕ)
      (acc : ℚ),
      (learn_episode_go A st o a acc steps).observation_number =
        st.observation_number + steps.length
  | [], _, _, _, _ => rfl
  | [_], _, _, _, _ => rfl
  | f :: g :: rest1, st, o, a, acc => by
    have ih := learn_episode_go_obs_num A (g :: rest1)
      (learn_step A st o a f false).st
      (learn_step A st o a f false).next_observation
      (learn_step A st o a f false).next_action
      (acc + (learn_step A st o a f false).reward)
    have hstep : learn_episode_go A st o a acc (f :: g :: rest1) =
        learn_episode_go A (learn_step A st o a f false).st
          (learn_step A st o a f false).next_observation
          (learn_step A st o a f false).next_action
          (acc + (learn_step A st o a f false).reward) (g :: rest1) :=
      rfl
    rw [hstep, ih, learn_step_obs_num]
    simp only [List.length_cons]
    omega

/-- One outer iteration advances the observation counter by the length
of the episode the learning environment serves. -/
theorem run_learning_episode_obs_num {Obs : Type} [DecidableEq Obs]
    (A : TrainArgs Obs) (st : TrainSt Obs) :
    (run_learning_episode A st).observation_number =
      st.observation_number +
        (A.learning_env.episodes (st.episode_number - 1)).2.length := by
  simp only [run_learning_episode]
  rw [learn_episode_go_obs_num]

/-- Fuel sufficiency for the outer loop: when every learning episode is
nonempty, any fuel at least the remaining observation budget makes
`train_go` return, with the budget exhausted at the returned state. -/
theorem train_go_halts {Obs : Type} [DecidableEq Obs]
    (A : TrainArgs Obs)
    (hep : ∀ i, (A.learning_env.episodes i).2 ≠ []) :
    ∀ (fuel : ℕ) (st : TrainSt Obs),
      A.total_observations - st.observation_number ≤ fuel →
      ∃ st1, train_go A fuel st = some st1 ∧
        A.total_observations ≤ st1.observation_number := by
  intro fuel
  induction fuel with
  | zero =>
    intro st hle
    have hge : ¬ st.observation_number < A.total_observations := by omega
    exact ⟨st, by simp [train_go, hge], by omega⟩
  | succ m ih =>
    intro st hle
    by_cases hlt : st.observation_number < A.total_observations
    · have hlen : 1 ≤
          (A.learning_env.episodes (st.episode_number - 1)).2.length :=
        List.length_pos.mpr (hep _)
      have hobs := run_learning_episode_obs_num A st
      have hle1 : A.total_observations -
          (run_learning_episode A st).observation_number ≤ m := by
        omega
      rcases ih (run_learning_episode A st) hle1 with ⟨st1, h1, h2⟩
      exact ⟨st1, by simp [train_go, hlt, h1], h2⟩
    · exact ⟨st, by simp [train_go, hlt], by omega⟩

/-- C6: in every iteration of the inner per-step cycle, the epsilon
used to select the next action and the learning rate used for the
SARSA update are computed from the observation counter before that
step's increment: the exposed schedule values equal the schedules at
the incoming counter, the next action is selected by `get_action` at
that epsilon, the table is updated with that learning rate, and only
then is the counter incremented. -/
theorem claim_C6 {Obs : Type} [DecidableEq Obs] (A : TrainArgs Obs)
    (st : TrainSt Obs) (observation : Obs) (action : ℕ)
    (f : ℕ → Obs × ℚ) (done : Bool) :
    (learn_step A st observation action f done).epsilon_used =
      get_epsilon A.start_epsilon A.end_epsilon
        (st.observation_number : ℚ) (A.total_observations : ℚ) ∧
    (learn_step A st observation action f done).learning_rate_used =
      get_learning_rate A.start_learning_rate A.end_learning_rate
        (st.observation_number : ℚ) (A.total_observations : ℚ) ∧
    (learn_step A st observation action f done).next_action =
      (get_action A.learning_env.n st.table (f action).1
        (get_epsilon A.start_epsilon A.end_epsilon
          (st.observation_number : ℚ) (A.total_observations : ℚ))
        st.rng).1 ∧
    (learn_step A st observation action f done).st.table.q =
      (update_table
        (get_action A.learning_env.n st.table (f action).1
          (get_epsilon A.start_epsilon A.end_epsilon
            (st.observation_number : ℚ) (A.total_observations : ℚ))
          st.rng).2.2
        A.discount_factor
        (get_learning_rate A.start_learning_rate A.end_learning_rate
          (st.observation_number : ℚ) (A.total_observations : ℚ))
        observation action (f action).2 done (f action).1
        (get_action A.learning_env.n st.table (f action).1
          (get_epsilon A.start_epsilon A.end_epsilon
            (st.observation_number : ℚ) (A.total_observations : ℚ))
          st.rng).1).q ∧
    (learn_step A st observation action f done).st.observation_number =
      st.observation_number + 1 := by
  refine ⟨rfl, rfl, rfl, ?_, rfl⟩
  simp only [learn_step]
  split
  · exact test_table_q _ _ _ _ _ _
  · rfl

/-- C7: when every episode of the learning environment terminates
(is a finite nonempty step list), `train` with fuel equal to the
observation budget halts with the budget exhausted and both
environments closed; the outer loop runs a new episode exactly when
the observation counter is strictly below the budget. -/
theorem claim_C7 {Obs : Type} [DecidableEq Obs] (A : TrainArgs Obs)
    (table : TTable Obs) (r : RNG)
    (hep : ∀ i, (A.learning_env.episodes i).2 ≠ []) :
    (∃ res, train A table r A.total_observations = some res ∧
      A.total_observations ≤ res.st.observation_number ∧
      res.learning_env_closed = true ∧
      res.testing_env_closed = true) ∧
    (∀ (fuel : ℕ) (st : TrainSt Obs),
      ¬ st.observation_number < A.total_observations →
      train_go A (fuel + 1) st = some st) ∧
    (∀ (fuel : ℕ) (st : TrainSt Obs),
      st.observation_number < A.total_observations →
      train_go A (fuel + 1) st =
        train_go A fuel (run_learning_episode A st)) := by
  refine ⟨?_, ?_, ?_⟩
  · rcases train_go_halts A hep A.total_observations
        { table := table, rng := r, observation_number := 0,
                  episode_number := 1 } (by omega) with ⟨st1, h1, h2⟩
    exact ⟨{ st := st1, learning_env_closed := true,
             testing_env_closed := true },
      by simp [train, h1], h2, rfl, rfl⟩
  · intro fuel st h
    simp [train_go, h]
  · intro fuel st h
    simp [train_go, h]

/-- Concrete training configuration over the witness environment. -/
def exArgs : TrainArgs ℕ :=
  { discount_factor := 9/10, start_learning_rate := 1/2,
    end_learning_rate := 1/10, start_epsilon := 1,
    end_epsilon := 1/100, learning_env := exEnv, testing_env := exEnv,
    total_observations := 3, test_interval := 2,
    total_number_of_testing_episodes := 1, table_saving_interval := 2 }

/-- Witness for C7: training on the concrete two-step-episode
environment with a budget of 3 observations halts with both
environments closed. -/
theorem claim_C7_witness :
    ∃ res, train exArgs exTable exRNG exArgs.total_observations =
        some res ∧
      exArgs.total_observations ≤ res.st.observation_number ∧
      res.learning_env_closed = true ∧
      res.testing_env_closed = true :=
  (claim_C7 exArgs exTable exRNG
    (fun _ => by simp [exArgs, exEnv, exSteps])).1

end SarsaZero
